import Mathlib

/-!
Verification model of the EOS fuse block cache (`XrdFileCache` and its
collaborators `CacheImpl`, `CacheEntry`, `FileAbstraction`, `ConcurrentQueue`).
Only the header `XrdFileCache.hh` is available in the sources; the bodies of
the cache operations are modelled from the specification, with the data-model
field names taken from the header (`cache_size_max`, `inode2fAbst`,
`queue_used_indx`, `cache_impl`, `max_index_files`).

Bytes are modelled as `Nat`, buffers as `List Nat`, machine counters as `Nat`
(all quantities involved are non-negative sizes and offsets).  Remote I/O
performed by an operation is made observable as a list of `RemoteEvent`s.
-/

namespace EosXrdFileCache

/-- Modelled from the spec: a Cache Entry is one contiguous cached byte range
with its owning file key (inode), byte offset, payload bytes and dirty flag
(class `CacheEntry`, whose header is not among the sources). -/
structure CacheEntry where
  inode : Nat
  off : Nat
  data : List Nat
  dirty : Bool
deriving DecidableEq

/-- A remote write performed through the externally supplied file handle
(offset, length and owning inode of the flushed range). -/
structure RemoteEvent where
  inode : Nat
  off : Nat
  len : Nat
deriving DecidableEq

/-- Total number of payload bytes resident in a list of cache entries
(the Block Store's resident-byte counter, computed from the entries). -/
def residentBytes (entries : List CacheEntry) : Nat :=
  (entries.map (fun e => e.data.length)).sum

/-- Does entry `e` hold the byte of file `key` at absolute offset `off`? -/
def entryCovers (e : CacheEntry) (key off : Nat) : Bool :=
  e.inode == key && decide (e.off ≤ off) && decide (off < e.off + e.data.length)

/-- Does entry `e` of file `key` overlap the byte range `[off, off+len)`? -/
def overlapsRange (e : CacheEntry) (key off len : Nat) : Bool :=
  e.inode == key && decide (off < e.off + e.data.length) && decide (e.off < off + len)

/-- The resident byte of file `key` at absolute offset `off`, when cached. -/
def byteAt (entries : List CacheEntry) (key off : Nat) : Option Nat :=
  match entries.find? (fun e => entryCovers e key off) with
  | some e => e.data.get? (off - e.off)
  | none => none

/-- Modelled from the spec: `lookup` returns the contiguous resident prefix of
the requested range `[off, off+len)` of file `key` (Block Store `lookup`,
`CacheImpl` sources missing). -/
def lookupBytes (entries : List CacheEntry) (key off : Nat) : Nat → List Nat
  | 0 => []
  | l + 1 =>
    match byteAt entries key off with
    | none => []
    | some b => b :: lookupBytes entries key (off + 1) l

/-- Modelled from the spec: evict least-recently-used clean entries (the list
is kept LRU-first) until `toFree` bytes have been freed; returns the remaining
entries and the part of `toFree` that clean entries could not cover. -/
def evictClean (toFree : Nat) : List CacheEntry → List CacheEntry × Nat
  | [] => ([], toFree)
  | e :: rest =>
    if toFree = 0 then (e :: rest, 0)
    else if e.dirty then
      (e :: (evictClean toFree rest).1, (evictClean toFree rest).2)
    else
      evictClean (toFree - e.data.length) rest

/-- Modelled from the spec: when clean entries do not suffice, the store
force-flushes the oldest dirty entries (a synchronous remote write, recorded
as a `RemoteEvent`) and evicts them until `toFree` bytes are freed. -/
def evictForce (toFree : Nat) : List CacheEntry → List CacheEntry × List RemoteEvent
  | [] => ([], [])
  | e :: rest =>
    if toFree = 0 then (e :: rest, [])
    else
      ((evictForce (toFree - e.data.length) rest).1,
       (if e.dirty then [⟨e.inode, e.off, e.data.length⟩] else [])
         ++ (evictForce (toFree - e.data.length) rest).2)

/-- Free enough room in `keep` for `need` fresh bytes under budget `smax`:
clean LRU entries go first, then dirty entries are flushed and evicted. -/
def admitEvict (keep : List CacheEntry) (need smax : Nat) :
    List CacheEntry × List RemoteEvent :=
  (evictForce (evictClean (residentBytes keep + need - smax) keep).2
      (evictClean (residentBytes keep + need - smax) keep).1)

/-- Modelled from the spec: Block Store `insert` — a block larger than the
budget is rejected; otherwise entries of the same key overlapping the new
range are overwritten, eviction frees room, and the block is admitted whole
(`CacheImpl` sources missing). -/
def insertBlock (entries : List CacheEntry) (smax key off : Nat)
    (data : List Nat) (dirty : Bool) : List CacheEntry × Nat × List RemoteEvent :=
  if smax < data.length then (entries, 0, [])
  else
    ((admitEvict (entries.filter (fun e => ! overlapsRange e key off data.length))
        data.length smax).1 ++ [⟨key, off, data, dirty⟩],
     data.length,
     (admitEvict (entries.filter (fun e => ! overlapsRange e key off data.length))
        data.length smax).2)

/-- Modelled from the spec: Block Store `markClean` — after a successful
flush the flushed bytes become clean (evictable). -/
def markClean (entries : List CacheEntry) (key off len : Nat) : List CacheEntry :=
  entries.map (fun e =>
    if e.inode == key && decide (off ≤ e.off) && decide (e.off + e.data.length ≤ off + len)
    then { e with dirty := false } else e)

/-- Modelled from the spec: an error record accumulated on a file's error
queue by the write-back worker — the context (offset, length) of the failed
remote write (`error_type` of `FileAbstraction.hh`, not among the sources). -/
structure ErrorRecord where
  off : Nat
  len : Nat
deriving DecidableEq

/-- A pending write job: owning inode, range, payload, and the outcome the
externally supplied remote file handle will produce for this write (the
handle is an external collaborator; its behaviour is part of the input). -/
structure WriteJob where
  inode : Nat
  off : Nat
  data : List Nat
  succeeds : Bool
deriving DecidableEq

/-- Modelled from the spec: the per-open-file bookkeeping object — inode,
assigned slot index, open reference count, pending-write counter and per-file
error queue (class `FileAbstraction`, whose sources are missing). -/
structure FileAbstraction where
  inode : Nat
  slot : Nat
  refCount : Nat
  pendingWrites : Nat
  errorQueue : List ErrorRecord
deriving DecidableEq

/-- The cache manager state: field names follow `XrdFileCache.hh`
(`cache_size_max`, `inode2fAbst`, `queue_used_indx`, `cache_impl`); the
pending-write work queue consumed by the single worker thread is the
`writeQueue`.  The entry list of `cache_impl` is kept LRU-first. -/
structure XrdFileCache where
  cache_size_max : Nat
  inode2fAbst : List FileAbstraction
  queue_used_indx : List Nat
  writeQueue : List WriteJob
  cache_impl : List CacheEntry
deriving DecidableEq

/-- `max_index_files` from `XrdFileCache.hh`: maximum number of files
concurrently in cache, has to be at least 10. -/
def max_index_files : Nat := 1000

/-- Lookup of the File Abstraction mapped to `inode` (the `inode2fAbst` map). -/
def lookupFA (files : List FileAbstraction) (inode : Nat) : Option FileAbstraction :=
  files.find? (fun fa => fa.inode == inode)

/-- Update the File Abstraction mapped to `inode` in place. -/
def updateFA (files : List FileAbstraction) (inode : Nat)
    (f : FileAbstraction → FileAbstraction) : List FileAbstraction :=
  files.map (fun fa => if fa.inode == inode then f fa else fa)

/-- `FileAbstraction::IncrementWrites`: one more pending write. -/
def incPending (fa : FileAbstraction) : FileAbstraction :=
  { fa with pendingWrites := fa.pendingWrites + 1 }

/-- `FileAbstraction::DecrementWrites`: a pending write completed. -/
def decPending (fa : FileAbstraction) : FileAbstraction :=
  { fa with pendingWrites := fa.pendingWrites - 1 }

/-- A failed remote write completed: decrement the pending counter and push
the error record on the file's error queue. -/
def recordError (off len : Nat) (fa : FileAbstraction) : FileAbstraction :=
  { fa with pendingWrites := fa.pendingWrites - 1,
            errorQueue := fa.errorQueue ++ [⟨off, len⟩] }

/-- `FileAbstraction::IncrementNoReferences`. -/
def incRef (fa : FileAbstraction) : FileAbstraction :=
  { fa with refCount := fa.refCount + 1 }

/-- `FileAbstraction::DecrementNoReferences`. -/
def decRef (fa : FileAbstraction) : FileAbstraction :=
  { fa with refCount := fa.refCount - 1 }

/-- Modelled from the spec: the freshly initialised cache manager (`Init`):
empty stores and the slot-index pool holding all indices in `[0, N)`. -/
def XrdFileCache.init (s_max : Nat) : XrdFileCache :=
  ⟨s_max, [], List.range max_index_files, [], []⟩

/-- Modelled from the spec: singleton accessor `GetInstance` — `pInstance`
is created from `s_max` on the first call and returned unchanged, together
with the (possibly updated) value of the static `pInstance` pointer, on
every later call (`XrdFileCache::GetInstance`, sources missing). -/
def GetInstance (pInstance : Option XrdFileCache) (s_max : Nat) :
    Option XrdFileCache × XrdFileCache :=
  match pInstance with
  | some inst => (some inst, inst)
  | none => (some (XrdFileCache.init s_max), XrdFileCache.init s_max)

/-- Modelled from the spec: `GetFileObj` returns the existing File
Abstraction for `inode` or creates one, consuming a recyclable slot index;
it fails when the slot pool is exhausted (sources missing). -/
def GetFileObj (s : XrdFileCache) (inode : Nat) :
    Option FileAbstraction × XrdFileCache :=
  match lookupFA s.inode2fAbst inode with
  | some fa => (some fa, s)
  | none =>
    match s.queue_used_indx with
    | [] => (none, s)
    | idx :: rest =>
      (some ⟨inode, idx, 0, 0, []⟩,
       { s with inode2fAbst := (⟨inode, idx, 0, 0, []⟩ : FileAbstraction) :: s.inode2fAbst,
                queue_used_indx := rest })

/-- Modelled from the spec: `GetRead` serves the contiguous resident prefix
of the requested range from the Block Store into the caller's buffer and
returns the byte count; it performs no remote I/O (empty event list) and
leaves the cache untouched (`XrdFileCache::GetRead`, sources missing). -/
def GetRead (s : XrdFileCache) (inode off len : Nat) :
    (List Nat × Nat) × List RemoteEvent :=
  ((lookupBytes s.cache_impl inode off len,
    (lookupBytes s.cache_impl inode off len).length), [])

/-- Modelled from the spec: `PutRead` inserts freshly fetched remote data as
a clean entry, returning the admitted byte count
(`XrdFileCache::PutRead`, sources missing). -/
def PutRead (s : XrdFileCache) (inode off : Nat) (data : List Nat) :
    (XrdFileCache × Nat) × List RemoteEvent :=
  (({ s with cache_impl := (insertBlock s.cache_impl s.cache_size_max inode off data false).1 },
    (insertBlock s.cache_impl s.cache_size_max inode off data false).2.1),
   (insertBlock s.cache_impl s.cache_size_max inode off data false).2.2)

/-- Modelled from the spec: `SubmitWrite` obtains or creates the File
Abstraction, stores the buffer as a dirty entry (budget permitting),
increments the pending-write counter, enqueues the write job and returns
immediately; `succeeds` is the outcome the remote handle will later produce
(`XrdFileCache::SubmitWrite`, sources missing). -/
def SubmitWrite (s : XrdFileCache) (inode off : Nat) (data : List Nat)
    (succeeds : Bool) : XrdFileCache × List RemoteEvent :=
  match lookupFA s.inode2fAbst inode with
  | some _ =>
    ({ s with cache_impl := (insertBlock s.cache_impl s.cache_size_max inode off data true).1,
              inode2fAbst := updateFA s.inode2fAbst inode incPending,
              writeQueue := s.writeQueue ++ [⟨inode, off, data, succeeds⟩] },
     (insertBlock s.cache_impl s.cache_size_max inode off data true).2.2)
  | none =>
    match s.queue_used_indx with
    | [] => (s, [])
    | idx :: rest =>
      ({ s with cache_impl := (insertBlock s.cache_impl s.cache_size_max inode off data true).1,
                inode2fAbst := (⟨inode, idx, 0, 1, []⟩ : FileAbstraction) :: s.inode2fAbst,
                queue_used_indx := rest,
                writeQueue := s.writeQueue ++ [⟨inode, off, data, succeeds⟩] },
       (insertBlock s.cache_impl s.cache_size_max inode off data true).2.2)

/-- Modelled from the spec: the write-back worker handles one dequeued job —
perform the remote write (the returned `RemoteEvent`); on success mark the
bytes clean and decrement the file's pending counter; on failure push an
error record onto the file's error queue, still decrement the pending
counter, and leave the Cache Entry dirty (`WriteThreadProc` body missing). -/
def processJob (j : WriteJob) (s : XrdFileCache) : XrdFileCache × RemoteEvent :=
  if j.succeeds then
    ({ s with cache_impl := markClean s.cache_impl j.inode j.off j.data.length,
              inode2fAbst := updateFA s.inode2fAbst j.inode decPending },
     ⟨j.inode, j.off, j.data.length⟩)
  else
    ({ s with inode2fAbst := updateFA s.inode2fAbst j.inode (recordError j.off j.data.length) },
     ⟨j.inode, j.off, j.data.length⟩)

/-- The single worker thread draining a list of jobs in FIFO order,
returning the final state and the remote writes in the order performed. -/
def runJobs : List WriteJob → XrdFileCache → XrdFileCache × List RemoteEvent
  | [], s => (s, [])
  | j :: rest, s =>
    ((runJobs rest (processJob j s).1).1,
     (processJob j s).2 :: (runJobs rest (processJob j s).1).2)

/-- Modelled from the spec: the asynchronous worker thread loop
(`XrdFileCache::WriteThreadProc`): blocking-pop each queued write job and
process it; with a single worker the whole queue is drained in submission
order. -/
def WriteThreadProc (s : XrdFileCache) : XrdFileCache × List RemoteEvent :=
  runJobs s.writeQueue { s with writeQueue := [] }

/-- One scheduling step of the worker thread: process the head job, if any. -/
def workerStep (s : XrdFileCache) : XrdFileCache × List RemoteEvent :=
  match s.writeQueue with
  | [] => (s, [])
  | j :: rest => ((processJob j { s with writeQueue := rest }).1,
                  [(processJob j { s with writeQueue := rest }).2])

/-- Modelled from the spec: `WaitFinishWrites` blocks the caller until the
file's pending-write counter reaches zero; in this sequential model the
blocked caller observes the state after the single worker has drained the
queued jobs (`XrdFileCache::WaitFinishWrites`, sources missing). -/
def WaitFinishWrites (s : XrdFileCache) (inode : Nat) : XrdFileCache :=
  (WriteThreadProc s).1

/-- Modelled from the spec and the header comment of
`XrdFileCache::RemoveFileInode`: under the strong constraint the file must
have no read or write blocks in cache, no references and no pending writes;
under the weak constraint only the reference count must be zero.  On success
the mapping and the file's entries are removed and its slot index recycled;
the second component of the result reports whether dirty (unflushed) data
was discarded (the data-loss signal required by the spec). -/
def RemoveFileInode (s : XrdFileCache) (inode : Nat) (strong_constraint : Bool) :
    (Bool × Bool) × XrdFileCache :=
  match lookupFA s.inode2fAbst inode with
  | none => ((false, false), s)
  | some fa =>
    if (if strong_constraint then
          fa.refCount == 0 && fa.pendingWrites == 0
            && (s.cache_impl.filter (fun e => e.inode == inode)).isEmpty
        else fa.refCount == 0) then
      ((true, (s.cache_impl.filter (fun e => e.inode == inode)).any (fun e => e.dirty)),
       { s with inode2fAbst := s.inode2fAbst.filter (fun f => f.inode != inode),
                cache_impl := s.cache_impl.filter (fun e => e.inode != inode),
                queue_used_indx := s.queue_used_indx ++ [fa.slot] })
    else ((false, false), s)

/-- Modelled from the spec: `GetErrorQueue` exposes the per-file error queue
(`XrdFileCache::GetErrorQueue`, sources missing). -/
def GetErrorQueue (s : XrdFileCache) (inode : Nat) : Option (List ErrorRecord) :=
  Option.map (fun fa => fa.errorQueue) (lookupFA s.inode2fAbst inode)

/-- The public operations of the cache manager, as a reified alphabet for
stating invariants over arbitrary operation sequences. -/
inductive CacheOp where
  | putRead (inode off : Nat) (data : List Nat)
  | submitWrite (inode off : Nat) (data : List Nat) (succeeds : Bool)
  | getFileObj (inode : Nat)
  | removeFileInode (inode : Nat) (strong : Bool)
  | acquireRef (inode : Nat)
  | releaseRef (inode : Nat)
  | worker
  | wait (inode : Nat)
deriving DecidableEq

/-- The state transition performed by one cache-manager operation. -/
def stepOp (s : XrdFileCache) : CacheOp → XrdFileCache
  | .putRead i o d => (PutRead s i o d).1.1
  | .submitWrite i o d b => (SubmitWrite s i o d b).1
  | .getFileObj i => (GetFileObj s i).2
  | .removeFileInode i b => (RemoveFileInode s i b).2
  | .acquireRef i =>
    { s with inode2fAbst := updateFA s.inode2fAbst i incRef }
  | .releaseRef i =>
    { s with inode2fAbst := updateFA s.inode2fAbst i decRef }
  | .worker => (workerStep s).1
  | .wait i => WaitFinishWrites s i

/-- Run a sequence of cache-manager operations from a starting state. -/
def runOps (s : XrdFileCache) (ops : List CacheOp) : XrdFileCache :=
  ops.foldl stepOp s

/-- Create the File Abstraction for `inode` and immediately destroy it
(weak removal), as in the slot-recycling scenario of the spec. -/
def createDestroy (s : XrdFileCache) (inode : Nat) : XrdFileCache :=
  (RemoveFileInode (GetFileObj s inode).2 inode false).2

/-- Repeat `createDestroy` for `k` successive fresh inodes. -/
def createDestroyIter : Nat → Nat → XrdFileCache → XrdFileCache
  | 0, _, s => s
  | k + 1, inode, s => createDestroyIter k (inode + 1) (createDestroy s inode)

/-- A concrete cache state with one quiescent File Abstraction for inode 1
(zero references, zero pending writes) and one clean resident Cache Entry
for inode 1. -/
def strongCounterState : XrdFileCache :=
  ⟨100, [⟨1, 0, 0, 0, []⟩], [], [], [⟨1, 0, [7], false⟩]⟩

/-- A concrete cache state with one fully quiescent File Abstraction for
inode 3 and an empty Block Store. -/
def strongRemovableState : XrdFileCache :=
  ⟨100, [⟨3, 2, 0, 0, []⟩], [], [], []⟩

/-- A concrete cache state with an unreferenced File Abstraction for inode 2
and a dirty, unflushed Cache Entry for inode 2. -/
def weakRemovableState : XrdFileCache :=
  ⟨100, [⟨2, 0, 0, 0, []⟩], [], [], [⟨2, 0, [9], true⟩]⟩

/-- A concrete cache state with a File Abstraction for inode 4 holding one
pending write and an empty error queue. -/
def failState : XrdFileCache :=
  ⟨100, [⟨4, 0, 0, 1, []⟩], [], [], []⟩

/-- A concrete cache state with an idle File Abstraction for inode 6, an
empty error queue and an empty write queue. -/
def submitState : XrdFileCache :=
  ⟨100, [⟨6, 0, 0, 0, []⟩], [], [], []⟩

theorem residentBytes_nil : residentBytes [] = 0 := rfl

theorem residentBytes_cons (e : CacheEntry) (es : List CacheEntry) :
    residentBytes (e :: es) = e.data.length + residentBytes es := by
  simp [residentBytes]

theorem residentBytes_append (a b : List CacheEntry) :
    residentBytes (a ++ b) = residentBytes a + residentBytes b := by
  simp [residentBytes]

theorem residentBytes_filter_le (p : CacheEntry → Bool) (es : List CacheEntry) :
    residentBytes (es.filter p) ≤ residentBytes es := by
  induction es with
  | nil => simp [residentBytes]
  | cons e rest ih =>
    by_cases hp : p e
    · simpa [List.filter_cons, hp, residentBytes_cons] using ih
    · simp only [List.filter_cons, hp, Bool.false_eq_true, if_false, residentBytes_cons]
      omega

theorem markClean_residentBytes (es : List CacheEntry) (k o l : Nat) :
    residentBytes (markClean es k o l) = residentBytes es := by
  induction es with
  | nil => rfl
  | cons e rest ih =>
    simp only [markClean, List.map_cons, residentBytes_cons] at ih ⊢
    rw [ih]
    by_cases hc : (e.inode == k && decide (o ≤ e.off)
        && decide (e.off + e.data.length ≤ o + l)) = true
    · rw [if_pos hc]
    · rw [if_neg hc]

theorem evictClean_spec (es : List CacheEntry) : ∀ toFree : Nat,
    residentBytes (evictClean toFree es).1 + (toFree - (evictClean toFree es).2)
      ≤ residentBytes es ∧ (evictClean toFree es).2 ≤ toFree := by
  induction es with
  | nil => intro t; simp [evictClean]
  | cons e rest ih =>
    intro t
    by_cases ht : t = 0
    · subst ht; simp [evictClean]
    · by_cases hd : e.dirty
      · have h := ih t
        simp only [evictClean, ht, if_false, hd, if_true, residentBytes_cons]
        omega
      · have h := ih (t - e.data.length)
        simp only [evictClean, ht, if_false, hd, Bool.false_eq_true, residentBytes_cons]
        omega

theorem evictForce_resident (es : List CacheEntry) : ∀ t : Nat,
    residentBytes (evictForce t es).1 ≤ residentBytes es - t := by
  induction es with
  | nil => intro t; simp [evictForce, residentBytes]
  | cons e rest ih =>
    intro t
    by_cases ht : t = 0
    · subst ht; simp [evictForce]
    · have h := ih (t - e.data.length)
      simp only [evictForce, ht, if_false, residentBytes_cons]
      omega

theorem mem_evictClean (es : List CacheEntry) : ∀ (t : Nat) (x : CacheEntry),
    x ∈ (evictClean t es).1 → x ∈ es := by
  induction es with
  | nil => intro t x h; simpa [evictClean] using h
  | cons e rest ih =>
    intro t x h
    by_cases ht : t = 0
    · subst ht; simpa [evictClean] using h
    · by_cases hd : e.dirty
      · simp only [evictClean, ht, if_false, hd, if_true, List.mem_cons] at h
        rcases h with h | h
        · exact List.mem_cons.mpr (Or.inl h)
        · exact List.mem_cons.mpr (Or.inr (ih t x h))
      · simp only [evictClean, ht, if_false, hd, Bool.false_eq_true] at h
        exact List.mem_cons.mpr (Or.inr (ih (t - e.data.length) x h))

theorem mem_evictForce (es : List CacheEntry) : ∀ (t : Nat) (x : CacheEntry),
    x ∈ (evictForce t es).1 → x ∈ es := by
  induction es with
  | nil => intro t x h; simpa [evictForce] using h
  | cons e rest ih =>
    intro t x h
    by_cases ht : t = 0
    · subst ht; simpa [evictForce] using h
    · simp only [evictForce, ht, if_false] at h
      exact List.mem_cons.mpr (Or.inr (ih (t - e.data.length) x h))

theorem admitEvict_resident (keep : List CacheEntry) (need smax : Nat)
    (h : need ≤ smax) :
    residentBytes (admitEvict keep need smax).1 + need ≤ smax := by
  have hc := evictClean_spec keep (residentBytes keep + need - smax)
  have hf := evictForce_resident (evictClean (residentBytes keep + need - smax) keep).1
      (evictClean (residentBytes keep + need - smax) keep).2
  simp only [admitEvict]
  omega

theorem mem_admitEvict (keep : List CacheEntry) (need smax : Nat) (x : CacheEntry)
    (h : x ∈ (admitEvict keep need smax).1) : x ∈ keep := by
  exact mem_evictClean keep _ x (mem_evictForce _ _ x h)

theorem insertBlock_resident (es : List CacheEntry) (smax k o : Nat)
    (d : List Nat) (b : Bool) (h : residentBytes es ≤ smax) :
    residentBytes (insertBlock es smax k o d b).1 ≤ smax := by
  by_cases hlen : smax < d.length
  · simpa [insertBlock, hlen] using h
  · have ha := admitEvict_resident
      (es.filter (fun e => ! overlapsRange e k o d.length)) d.length smax (by omega)
    simp only [insertBlock, hlen, if_false, residentBytes_append, residentBytes_cons,
      residentBytes_nil]
    omega

theorem lookupBytes_length_le (es : List CacheEntry) (k : Nat) :
    ∀ (l o : Nat), (lookupBytes es k o l).length ≤ l := by
  intro l
  induction l with
  | zero => intro o; simp [lookupBytes]
  | succ n ih =>
    intro o
    simp only [lookupBytes]
    cases byteAt es k o with
    | none => simp
    | some b =>
      have := ih (o + 1)
      simpa using this

theorem lookupBytes_get? (es : List CacheEntry) (k : Nat) :
    ∀ (l o i : Nat), i < (lookupBytes es k o l).length →
      (lookupBytes es k o l).get? i = byteAt es k (o + i) := by
  intro l
  induction l with
  | zero => intro o i h; simp [lookupBytes] at h
  | succ n ih =>
    intro o i h
    simp only [lookupBytes] at h ⊢
    cases hb : byteAt es k o with
    | none => simp [hb] at h
    | some b =>
      simp only [hb] at h ⊢
      cases i with
      | zero => simpa using hb.symm
      | succ m =>
        simp only [List.length_cons, Nat.succ_lt_succ_iff] at h
        have hrec := ih (o + 1) m h
        rw [List.get?_cons_succ, hrec]
        congr 1
        omega

theorem lookupBytes_maximal (es : List CacheEntry) (k : Nat) :
    ∀ (l o : Nat), (lookupBytes es k o l).length < l →
      byteAt es k (o + (lookupBytes es k o l).length) = none := by
  intro l
  induction l with
  | zero => intro o h; omega
  | succ n ih =>
    intro o h
    simp only [lookupBytes] at h ⊢
    cases hb : byteAt es k o with
    | none => simpa using hb
    | some b =>
      simp only [hb, List.length_cons] at h ⊢
      have hrec := ih (o + 1) (by omega)
      have heq : o + ((lookupBytes es k (o + 1) n).length + 1)
          = o + 1 + (lookupBytes es k (o + 1) n).length := by omega
      rw [heq]
      exact hrec

theorem find?_eq_of_unique {α : Type} (p : α → Bool) (l : List α) (e : α)
    (hmem : e ∈ l) (hpe : p e = true) (huni : ∀ x ∈ l, p x = true → x = e) :
    l.find? p = some e := by
  induction l with
  | nil => cases hmem
  | cons a t ih =>
    by_cases hpa : p a = true
    · have ha : a = e := huni a (List.mem_cons_self a t) hpa
      rw [List.find?_cons_of_pos _ hpa, ha]
    · have hpa' : ¬ p a := by simpa using hpa
      rw [List.find?_cons_of_neg _ hpa']
      have hae : a ≠ e := by
        intro h
        exact hpa (h ▸ hpe)
      have hmem' : e ∈ t := by
        rcases List.mem_cons.mp hmem with h | h
        · exact absurd h.symm hae
        · exact h
      exact ih hmem' (fun x hx hpx => huni x (List.mem_cons_of_mem a hx) hpx)

theorem byteAt_of_unique_cover (entries : List CacheEntry) (key o : Nat)
    (data : List Nat) (b : Bool)
    (hmem : (⟨key, o, data, b⟩ : CacheEntry) ∈ entries)
    (huni : ∀ e' ∈ entries, e'.inode = key → e'.off < o + data.length →
        o < e'.off + e'.data.length → e' = ⟨key, o, data, b⟩)
    (off : Nat) (h1 : o ≤ off) (h2 : off < o + data.length) :
    byteAt entries key off = data.get? (off - o) := by
  have hcov : entryCovers ⟨key, o, data, b⟩ key off = true := by
    simp [entryCovers]
    omega
  have hfind : entries.find? (fun e => entryCovers e key off)
      = some ⟨key, o, data, b⟩ := by
    apply find?_eq_of_unique _ _ _ hmem hcov
    intro x hx hpx
    simp only [entryCovers, Bool.and_eq_true, beq_iff_eq, decide_eq_true_eq] at hpx
    exact huni x hx hpx.1.1 (by omega) (by omega)
  simp [byteAt, hfind]

theorem lookupBytes_of_unique_cover (entries : List CacheEntry) (key o : Nat)
    (data : List Nat) (b : Bool)
    (hmem : (⟨key, o, data, b⟩ : CacheEntry) ∈ entries)
    (huni : ∀ e' ∈ entries, e'.inode = key → e'.off < o + data.length →
        o < e'.off + e'.data.length → e' = ⟨key, o, data, b⟩) :
    ∀ (l' o' : Nat), o ≤ o' → o' + l' ≤ o + data.length →
      lookupBytes entries key o' l' = (data.drop (o' - o)).take l' := by
  intro l'
  induction l' with
  | zero => intro o' h1 h2; simp [lookupBytes]
  | succ n ih =>
    intro o' h1 h2
    have hidx : o' - o < data.length := by omega
    have hb : byteAt entries key o' = data.get? (o' - o) :=
      byteAt_of_unique_cover entries key o data b hmem huni o' h1 (by omega)
    have hget : data.get? (o' - o) = some (data.get ⟨o' - o, hidx⟩) :=
      List.get?_eq_get hidx
    simp only [lookupBytes, hb, hget]
    have hrest := ih (o' + 1) (by omega) (by omega)
    rw [hrest]
    have hdrop : data.drop (o' - o)
        = data.get ⟨o' - o, hidx⟩ :: data.drop ((o' - o) + 1) :=
      List.drop_eq_get_cons hidx
    have hind : o' + 1 - o = (o' - o) + 1 := by omega
    rw [hind, hdrop, List.take_succ_cons]

theorem updateFA_length (files : List FileAbstraction) (i : Nat)
    (f : FileAbstraction → FileAbstraction) :
    (updateFA files i f).length = files.length := by
  simp [updateFA]

theorem updateFA_map_inode (files : List FileAbstraction) (i : Nat)
    (f : FileAbstraction → FileAbstraction) (hf : ∀ fa, (f fa).inode = fa.inode) :
    (updateFA files i f).map FileAbstraction.inode
      = files.map FileAbstraction.inode := by
  induction files with
  | nil => rfl
  | cons a t ih =>
    simp only [updateFA, List.map_cons] at ih ⊢
    by_cases hai : (a.inode == i) = true
    · rw [if_pos hai, ih, hf]
    · rw [if_neg hai, ih]

theorem lookupFA_cons (a : FileAbstraction) (t : List FileAbstraction) (j : Nat) :
    lookupFA (a :: t) j = if a.inode = j then some a else lookupFA t j := by
  by_cases h : a.inode = j
  · rw [if_pos h]
    exact List.find?_cons_of_pos _ (show ((fun fa => fa.inode == j) a) = true by simp [h])
  · rw [if_neg h]
    exact List.find?_cons_of_neg _ (show ¬((fun fa => fa.inode == j) a) = true by simp [h])

theorem lookupFA_updateFA_self (files : List FileAbstraction) (i : Nat)
    (f : FileAbstraction → FileAbstraction) (hf : ∀ fa, (f fa).inode = fa.inode) :
    lookupFA (updateFA files i f) i = Option.map f (lookupFA files i) := by
  induction files with
  | nil => rfl
  | cons a t ih =>
    simp only [updateFA, List.map_cons] at ih ⊢
    by_cases hai : (a.inode == i) = true
    · have hai' : a.inode = i := by simpa using hai
      rw [if_pos hai, lookupFA_cons, lookupFA_cons,
        if_pos (show (f a).inode = i by rw [hf a]; exact hai'), if_pos hai']
      rfl
    · have hai' : ¬ a.inode = i := by simpa using hai
      rw [if_neg hai, lookupFA_cons, lookupFA_cons, if_neg hai', if_neg hai']
      exact ih

theorem lookupFA_updateFA_ne (files : List FileAbstraction) (i j : Nat)
    (f : FileAbstraction → FileAbstraction) (hf : ∀ fa, (f fa).inode = fa.inode)
    (hij : i ≠ j) :
    lookupFA (updateFA files i f) j = lookupFA files j := by
  induction files with
  | nil => rfl
  | cons a t ih =>
    simp only [updateFA, List.map_cons] at ih ⊢
    by_cases hai : (a.inode == i) = true
    · have hai' : a.inode = i := by simpa using hai
      have hfj : ¬ (f a).inode = j := by
        rw [hf a, hai']
        exact hij
      have haj : ¬ a.inode = j := by
        rw [hai']
        exact hij
      rw [if_pos hai, lookupFA_cons, lookupFA_cons, if_neg hfj, if_neg haj]
      exact ih
    · rw [if_neg hai, lookupFA_cons, lookupFA_cons]
      by_cases haj : a.inode = j
      · rw [if_pos haj, if_pos haj]
      · rw [if_neg haj, if_neg haj]
        exact ih

theorem lookupFA_none_not_mem (files : List FileAbstraction) (i : Nat)
    (h : lookupFA files i = none) :
    i ∉ files.map FileAbstraction.inode := by
  intro hmem
  rcases List.mem_map.mp hmem with ⟨fa, hfa, heq⟩
  have := List.find?_eq_none.mp h fa hfa
  simp [heq] at this

theorem lookupFA_filter_length (files : List FileAbstraction) (i : Nat)
    (fa : FileAbstraction) (hnd : (files.map FileAbstraction.inode).Nodup)
    (h : lookupFA files i = some fa) :
    (files.filter (fun f => f.inode != i)).length + 1 = files.length := by
  induction files with
  | nil => simp [lookupFA] at h
  | cons a t ih =>
    simp only [List.map_cons, List.nodup_cons] at hnd
    rw [lookupFA_cons] at h
    by_cases hai : a.inode = i
    · have ht : t.filter (fun f => f.inode != i) = t := by
        apply List.filter_eq_self.mpr
        intro f hf
        have hne : f.inode ≠ i := by
          intro hfi
          exact hnd.1 (List.mem_map.mpr ⟨f, hf, by rw [hfi, hai]⟩)
        simpa using hne
      have hcond : (a.inode != i) = false := by simp [hai]
      simp only [List.filter_cons, hcond, Bool.false_eq_true, if_false, ht, List.length_cons]
    · rw [if_neg hai] at h
      have hkeep : (a.inode != i) = true := by simpa using hai
      simp only [List.filter_cons, hkeep, if_true, List.length_cons]
      rw [← ih hnd.2 h]

/-- The structural invariant of the cache manager maintained by every
operation: resident bytes stay within the byte budget, the inode map has no
duplicate inodes, and the live File Abstractions plus the indices still in
the recycling pool account for exactly `max_index_files` slots. -/
def CacheInv (s : XrdFileCache) : Prop :=
  residentBytes s.cache_impl ≤ s.cache_size_max ∧
  (s.inode2fAbst.map FileAbstraction.inode).Nodup ∧
  s.inode2fAbst.length + s.queue_used_indx.length = max_index_files

theorem processJob_fields (j : WriteJob) (s : XrdFileCache) :
    (processJob j s).1.cache_size_max = s.cache_size_max ∧
    (processJob j s).1.queue_used_indx = s.queue_used_indx ∧
    (processJob j s).1.writeQueue = s.writeQueue ∧
    (processJob j s).1.inode2fAbst.length = s.inode2fAbst.length ∧
    (processJob j s).1.inode2fAbst.map FileAbstraction.inode
      = s.inode2fAbst.map FileAbstraction.inode ∧
    residentBytes (processJob j s).1.cache_impl = residentBytes s.cache_impl := by
  by_cases hj : j.succeeds = true
  · refine ⟨?_, ?_, ?_, ?_, ?_, ?_⟩ <;>
      simp [processJob, hj, updateFA_length, markClean_residentBytes,
        updateFA_map_inode _ _ decPending (fun fa => rfl)]
  · refine ⟨?_, ?_, ?_, ?_, ?_, ?_⟩ <;>
      simp [processJob, hj, updateFA_length,
        updateFA_map_inode _ _ (recordError j.off j.data.length) (fun fa => rfl)]

theorem runJobs_fields (jobs : List WriteJob) : ∀ s : XrdFileCache,
    (runJobs jobs s).1.cache_size_max = s.cache_size_max ∧
    (runJobs jobs s).1.queue_used_indx = s.queue_used_indx ∧
    (runJobs jobs s).1.inode2fAbst.length = s.inode2fAbst.length ∧
    (runJobs jobs s).1.inode2fAbst.map FileAbstraction.inode
      = s.inode2fAbst.map FileAbstraction.inode ∧
    residentBytes (runJobs jobs s).1.cache_impl = residentBytes s.cache_impl := by
  induction jobs with
  | nil => intro s; exact ⟨rfl, rfl, rfl, rfl, rfl⟩
  | cons j rest ih =>
    intro s
    have hp := processJob_fields j s
    have hr := ih (processJob j s).1
    exact ⟨hr.1.trans hp.1, hr.2.1.trans hp.2.1, hr.2.2.1.trans hp.2.2.2.1,
      hr.2.2.2.1.trans hp.2.2.2.2.1, hr.2.2.2.2.trans hp.2.2.2.2.2⟩

theorem workerStep_fields (s : XrdFileCache) :
    (workerStep s).1.cache_size_max = s.cache_size_max ∧
    (workerStep s).1.queue_used_indx = s.queue_used_indx ∧
    (workerStep s).1.inode2fAbst.length = s.inode2fAbst.length ∧
    (workerStep s).1.inode2fAbst.map FileAbstraction.inode
      = s.inode2fAbst.map FileAbstraction.inode ∧
    residentBytes (workerStep s).1.cache_impl = residentBytes s.cache_impl := by
  cases hq : s.writeQueue with
  | nil =>
    have hs : (workerStep s).1 = s := by
      simp [workerStep, hq]
    rw [hs]
    exact ⟨rfl, rfl, rfl, rfl, rfl⟩
  | cons j rest =>
    have hs : (workerStep s).1 = (processJob j { s with writeQueue := rest }).1 := by
      simp [workerStep, hq]
    rw [hs]
    have hp := processJob_fields j { s with writeQueue := rest }
    exact ⟨hp.1, hp.2.1, hp.2.2.2.1, hp.2.2.2.2.1, hp.2.2.2.2.2⟩

theorem stepOp_inv (s : XrdFileCache) (op : CacheOp) (h : CacheInv s) :
    CacheInv (stepOp s op) ∧ (stepOp s op).cache_size_max = s.cache_size_max := by
  obtain ⟨hres, hnd, hlen⟩ := h
  cases op with
  | putRead i o d =>
    exact ⟨⟨insertBlock_resident _ _ _ _ _ _ hres, hnd, hlen⟩, rfl⟩
  | submitWrite i o d b =>
    cases hfa : lookupFA s.inode2fAbst i with
    | some fa =>
      have hs : stepOp s (.submitWrite i o d b) =
          { s with cache_impl := (insertBlock s.cache_impl s.cache_size_max i o d true).1,
                   inode2fAbst := updateFA s.inode2fAbst i incPending,
                   writeQueue := s.writeQueue ++ [⟨i, o, d, b⟩] } := by
        simp [stepOp, SubmitWrite, hfa]
      rw [hs]
      refine ⟨⟨insertBlock_resident _ _ _ _ _ _ hres, ?_, ?_⟩, rfl⟩
      · show (List.map FileAbstraction.inode (updateFA s.inode2fAbst i incPending)).Nodup
        rw [updateFA_map_inode _ _ incPending (fun fa => rfl)]
        exact hnd
      · show (updateFA s.inode2fAbst i incPending).length
            + s.queue_used_indx.length = max_index_files
        rw [updateFA_length]
        exact hlen
    | none =>
      cases hq : s.queue_used_indx with
      | nil =>
        have hs : stepOp s (.submitWrite i o d b) = s := by
          simp [stepOp, SubmitWrite, hfa, hq]
        rw [hs]
        exact ⟨⟨hres, hnd, hlen⟩, rfl⟩
      | cons idx rest =>
        have hs : stepOp s (.submitWrite i o d b) =
            { s with cache_impl := (insertBlock s.cache_impl s.cache_size_max i o d true).1,
                     inode2fAbst := (⟨i, idx, 0, 1, []⟩ : FileAbstraction) :: s.inode2fAbst,
                     queue_used_indx := rest,
                     writeQueue := s.writeQueue ++ [⟨i, o, d, b⟩] } := by
          simp [stepOp, SubmitWrite, hfa, hq]
        rw [hs]
        refine ⟨⟨insertBlock_resident _ _ _ _ _ _ hres, ?_, ?_⟩, rfl⟩
        · show (List.map FileAbstraction.inode
              ((⟨i, idx, 0, 1, []⟩ : FileAbstraction) :: s.inode2fAbst)).Nodup
          simp only [List.map_cons, List.nodup_cons]
          exact ⟨lookupFA_none_not_mem _ _ hfa, hnd⟩
        · show ((⟨i, idx, 0, 1, []⟩ : FileAbstraction) :: s.inode2fAbst).length
              + rest.length = max_index_files
          rw [hq] at hlen
          simp only [List.length_cons] at hlen ⊢
          omega
  | getFileObj i =>
    cases hfa : lookupFA s.inode2fAbst i with
    | some fa =>
      have hs : stepOp s (.getFileObj i) = s := by
        simp [stepOp, GetFileObj, hfa]
      rw [hs]
      exact ⟨⟨hres, hnd, hlen⟩, rfl⟩
    | none =>
      cases hq : s.queue_used_indx with
      | nil =>
        have hs : stepOp s (.getFileObj i) = s := by
          simp [stepOp, GetFileObj, hfa, hq]
        rw [hs]
        exact ⟨⟨hres, hnd, hlen⟩, rfl⟩
      | cons idx rest =>
        have hs : stepOp s (.getFileObj i) =
            { s with inode2fAbst := (⟨i, idx, 0, 0, []⟩ : FileAbstraction) :: s.inode2fAbst,
                     queue_used_indx := rest } := by
          simp [stepOp, GetFileObj, hfa, hq]
        rw [hs]
        refine ⟨⟨hres, ?_, ?_⟩, rfl⟩
        · show (List.map FileAbstraction.inode
              ((⟨i, idx, 0, 0, []⟩ : FileAbstraction) :: s.inode2fAbst)).Nodup
          simp only [List.map_cons, List.nodup_cons]
          exact ⟨lookupFA_none_not_mem _ _ hfa, hnd⟩
        · show ((⟨i, idx, 0, 0, []⟩ : FileAbstraction) :: s.inode2fAbst).length
              + rest.length = max_index_files
          rw [hq] at hlen
          simp only [List.length_cons] at hlen ⊢
          omega
  | removeFileInode i b =>
    cases hfa : lookupFA s.inode2fAbst i with
    | none =>
      have hs : stepOp s (.removeFileInode i b) = s := by
        simp [stepOp, RemoveFileInode, hfa]
      rw [hs]
      exact ⟨⟨hres, hnd, hlen⟩, rfl⟩
    | some fa =>
      by_cases hok : (if b then
          fa.refCount == 0 && fa.pendingWrites == 0
            && (s.cache_impl.filter (fun e => e.inode == i)).isEmpty
        else fa.refCount == 0) = true
      · have hs : stepOp s (.removeFileInode i b) =
            { s with inode2fAbst := s.inode2fAbst.filter (fun f => f.inode != i),
                     cache_impl := s.cache_impl.filter (fun e => e.inode != i),
                     queue_used_indx := s.queue_used_indx ++ [fa.slot] } := by
          simp [stepOp, RemoveFileInode, hfa, hok]
        rw [hs]
        refine ⟨⟨le_trans (residentBytes_filter_le _ _) hres, ?_, ?_⟩, rfl⟩
        · show (List.map FileAbstraction.inode
              (s.inode2fAbst.filter (fun f => f.inode != i))).Nodup
          exact List.Sublist.nodup
            ((List.filter_sublist s.inode2fAbst).map FileAbstraction.inode) hnd
        · show (s.inode2fAbst.filter (fun f => f.inode != i)).length
              + (s.queue_used_indx ++ [fa.slot]).length = max_index_files
          have hrm := lookupFA_filter_length s.inode2fAbst i fa hnd hfa
          simp only [List.length_append, List.length_singleton]
          omega
      · have hs : stepOp s (.removeFileInode i b) = s := by
          simp [stepOp, RemoveFileInode, hfa, hok]
        rw [hs]
        exact ⟨⟨hres, hnd, hlen⟩, rfl⟩
  | acquireRef i =>
    refine ⟨⟨hres, ?_, ?_⟩, rfl⟩
    · show (List.map FileAbstraction.inode (updateFA s.inode2fAbst i incRef)).Nodup
      rw [updateFA_map_inode _ _ incRef (fun fa => rfl)]
      exact hnd
    · show (updateFA s.inode2fAbst i incRef).length
          + s.queue_used_indx.length = max_index_files
      rw [updateFA_length]
      exact hlen
  | releaseRef i =>
    refine ⟨⟨hres, ?_, ?_⟩, rfl⟩
    · show (List.map FileAbstraction.inode (updateFA s.inode2fAbst i decRef)).Nodup
      rw [updateFA_map_inode _ _ decRef (fun fa => rfl)]
      exact hnd
    · show (updateFA s.inode2fAbst i decRef).length
          + s.queue_used_indx.length = max_index_files
      rw [updateFA_length]
      exact hlen
  | worker =>
    have hw := workerStep_fields s
    refine ⟨⟨?_, ?_, ?_⟩, hw.1⟩
    · show residentBytes (workerStep s).1.cache_impl ≤ (workerStep s).1.cache_size_max
      rw [hw.2.2.2.2, hw.1]
      exact hres
    · show (List.map FileAbstraction.inode (workerStep s).1.inode2fAbst).Nodup
      rw [hw.2.2.2.1]
      exact hnd
    · show (workerStep s).1.inode2fAbst.length
          + (workerStep s).1.queue_used_indx.length = max_index_files
      rw [hw.2.2.1, hw.2.1]
      exact hlen
  | wait i =>
    have hr := runJobs_fields s.writeQueue { s with writeQueue := [] }
    refine ⟨⟨?_, ?_, ?_⟩, ?_⟩
    · show residentBytes (runJobs s.writeQueue { s with writeQueue := [] }).1.cache_impl
          ≤ (runJobs s.writeQueue { s with writeQueue := [] }).1.cache_size_max
      rw [hr.2.2.2.2, hr.1]
      exact hres
    · show (List.map FileAbstraction.inode
          (runJobs s.writeQueue { s with writeQueue := [] }).1.inode2fAbst).Nodup
      rw [hr.2.2.2.1]
      exact hnd
    · show (runJobs s.writeQueue { s with writeQueue := [] }).1.inode2fAbst.length
          + (runJobs s.writeQueue { s with writeQueue := [] }).1.queue_used_indx.length
          = max_index_files
      rw [hr.2.2.1, hr.2.1]
      exact hlen
    · show (runJobs s.writeQueue { s with writeQueue := [] }).1.cache_size_max
          = s.cache_size_max
      exact hr.1

theorem runOps_inv (ops : List CacheOp) : ∀ s : XrdFileCache, CacheInv s →
    CacheInv (runOps s ops) ∧ (runOps s ops).cache_size_max = s.cache_size_max := by
  induction ops with
  | nil => intro s h; exact ⟨h, rfl⟩
  | cons op rest ih =>
    intro s h
    have h1 := stepOp_inv s op h
    have h2 := ih (stepOp s op) h1.1
    exact ⟨h2.1, h2.2.trans h1.2⟩

theorem init_inv (s_max : Nat) : CacheInv (XrdFileCache.init s_max) := by
  refine ⟨?_, ?_, ?_⟩
  · simp [XrdFileCache.init, residentBytes]
  · simp [XrdFileCache.init]
  · simp [XrdFileCache.init]
theorem insertBlock_unique_cover (es : List CacheEntry) (smax k o : Nat)
    (d : List Nat) (b : Bool) (hlen : d.length ≤ smax) :
    (⟨k, o, d, b⟩ : CacheEntry) ∈ (insertBlock es smax k o d b).1 ∧
    ∀ e' ∈ (insertBlock es smax k o d b).1, e'.inode = k → e'.off < o + d.length →
      o < e'.off + e'.data.length → e' = ⟨k, o, d, b⟩ := by
  have hngt : ¬ smax < d.length := by omega
  simp only [insertBlock, hngt, if_false]
  constructor
  · exact List.mem_append.mpr (Or.inr (List.mem_singleton.mpr rfl))
  · intro e' he' h1 h2 h3
    rcases List.mem_append.mp he' with hl | hr
    · exfalso
      have hk := mem_admitEvict _ _ _ _ hl
      have hf := List.mem_filter.mp hk
      have hov : overlapsRange e' k o d.length = true := by
        simp only [overlapsRange, Bool.and_eq_true, beq_iff_eq, decide_eq_true_eq]
        exact ⟨⟨h1, h3⟩, h2⟩
      simp [hov] at hf
    · simpa using hr

theorem runJobs_trace (jobs : List WriteJob) : ∀ s : XrdFileCache,
    (runJobs jobs s).2
      = jobs.map (fun j => RemoteEvent.mk j.inode j.off j.data.length) := by
  induction jobs with
  | nil => intro s; rfl
  | cons j rest ih =>
    intro s
    have hev : (processJob j s).2 = RemoteEvent.mk j.inode j.off j.data.length := by
      by_cases hj : j.succeeds = true <;> simp [processJob, hj]
    show (processJob j s).2 :: (runJobs rest (processJob j s).1).2 = _
    rw [hev, ih]
    rfl

theorem filter_trace_inode (jobs : List WriteJob) (i : Nat) :
    (jobs.map (fun j => RemoteEvent.mk j.inode j.off j.data.length)).filter
        (fun ev => ev.inode == i)
      = (jobs.filter (fun j => j.inode == i)).map
          (fun j => RemoteEvent.mk j.inode j.off j.data.length) := by
  induction jobs with
  | nil => rfl
  | cons j rest ih =>
    by_cases hj : (j.inode == i) = true
    · simp [List.filter_cons, hj, ih]
    · simp [List.filter_cons, hj, ih]

theorem waitFinish_single (t : XrdFileCache) (j : WriteJob) (i : Nat)
    (h : t.writeQueue = [j]) :
    WaitFinishWrites t i = (processJob j { t with writeQueue := [] }).1 := by
  simp [WaitFinishWrites, WriteThreadProc, h, runJobs]

theorem createDestroy_clean (s : XrdFileCache) (i : Nat)
    (hf : s.inode2fAbst = []) (hp : s.queue_used_indx ≠ []) :
    (createDestroy s i).inode2fAbst = [] ∧
    (createDestroy s i).queue_used_indx.length = s.queue_used_indx.length := by
  cases hq : s.queue_used_indx with
  | nil => exact absurd hq hp
  | cons idx rest =>
    have hlook : lookupFA s.inode2fAbst i = none := by
      rw [hf]
      rfl
    have hg : (GetFileObj s i).2 =
        { s with inode2fAbst := [(⟨i, idx, 0, 0, []⟩ : FileAbstraction)],
                 queue_used_indx := rest } := by
      simp [GetFileObj, hlook, hq, hf, lookupFA]
    have hlook2 : lookupFA [(⟨i, idx, 0, 0, []⟩ : FileAbstraction)] i
        = some ⟨i, idx, 0, 0, []⟩ := by
      rw [lookupFA_cons]
      simp
    constructor
    · show ((RemoveFileInode (GetFileObj s i).2 i false).2).inode2fAbst = []
      rw [hg]
      simp [RemoveFileInode, hlook2]
    · show ((RemoveFileInode (GetFileObj s i).2 i false).2).queue_used_indx.length
          = (idx :: rest).length
      rw [hg]
      simp [RemoveFileInode, hlook2]

theorem createDestroyIter_clean : ∀ (k i : Nat) (s : XrdFileCache),
    s.inode2fAbst = [] → s.queue_used_indx.length = max_index_files →
    (createDestroyIter k i s).inode2fAbst = [] ∧
    (createDestroyIter k i s).queue_used_indx.length = max_index_files := by
  intro k
  induction k with
  | zero => intro i s hf hp; exact ⟨hf, hp⟩
  | succ n ih =>
    intro i s hf hp
    have hne : s.queue_used_indx ≠ [] := by
      intro h
      rw [h] at hp
      simp [max_index_files] at hp
    have hc := createDestroy_clean s i hf hne
    exact ih (i + 1) (createDestroy s i) hc.1 (hc.2.trans hp)

/-- C1: for every sequence of cache operations (in particular `putRead`
insertions and `submitWrite`-created dirty entries) starting from the freshly
initialised cache, the Block Store's resident bytes never exceed the
configured budget `S_max` after any operation completes. -/
theorem c1_residentBytes_le_smax (s_max : Nat) (ops : List CacheOp) :
    residentBytes (runOps (XrdFileCache.init s_max) ops).cache_impl ≤ s_max := by
  have h := runOps_inv ops (XrdFileCache.init s_max) (init_inv s_max)
  have h1 := h.1.1
  have h2 := h.2
  have h3 : (XrdFileCache.init s_max).cache_size_max = s_max := rfl
  omega

/-- C2: a byte range inserted by `putRead` (of length within the budget, so
it is admitted) and not evicted since is returned verbatim by `getRead` on
any sub-range: the bytes read are exactly the corresponding slice of the
inserted buffer, and the returned count is the full requested sub-length. -/
theorem c2_putRead_getRead_roundtrip (s : XrdFileCache) (key o : Nat)
    (data : List Nat) (hlen : data.length ≤ s.cache_size_max) (o' l' : Nat)
    (h1 : o ≤ o') (h2 : o' + l' ≤ o + data.length) :
    (GetRead (PutRead s key o data).1.1 key o' l').1.1
        = (data.drop (o' - o)).take l' ∧
    (GetRead (PutRead s key o data).1.1 key o' l').1.2 = l' := by
  have hu := insertBlock_unique_cover s.cache_impl s.cache_size_max key o data false hlen
  have hlb := lookupBytes_of_unique_cover
      (insertBlock s.cache_impl s.cache_size_max key o data false).1 key o data false
      hu.1 hu.2 l' o' h1 h2
  constructor
  · exact hlb
  · show (lookupBytes (insertBlock s.cache_impl s.cache_size_max key o data false).1
        key o' l').length = l'
    rw [hlb, List.length_take, List.length_drop]
    omega

/-- C2 witness: inserting bytes `[3, 1, 4, 1]` at offset 10 of inode 1 into a
fresh cache of budget 100 and reading the sub-range `[11, 13)` yields exactly
`[1, 4]` with count 2. -/
theorem c2_witness :
    (GetRead (PutRead (XrdFileCache.init 100) 1 10 [3, 1, 4, 1]).1.1 1 11 2).1.1
        = [1, 4] ∧
    (GetRead (PutRead (XrdFileCache.init 100) 1 10 [3, 1, 4, 1]).1.1 1 11 2).1.2 = 2 := by
  have h := c2_putRead_getRead_roundtrip (XrdFileCache.init 100) 1 10 [3, 1, 4, 1]
      (by decide) 11 2 (by decide) (by decide)
  exact ⟨h.1.trans (by decide), h.2⟩

/-- C3: `getRead` returns the number of bytes it copied, copies the maximal
contiguous run of resident bytes available starting at `offset` (never more
than requested), returns 0 on a full cache miss, performs no remote I/O, and
does not modify the cache state (it is a pure function of the state). -/
theorem c3_getRead_spec (s : XrdFileCache) (inode off len : Nat) :
    (GetRead s inode off len).2 = [] ∧
    (GetRead s inode off len).1.2 = (GetRead s inode off len).1.1.length ∧
    (GetRead s inode off len).1.2 ≤ len ∧
    (∀ i, i < (GetRead s inode off len).1.2 →
      (GetRead s inode off len).1.1.get? i = byteAt s.cache_impl inode (off + i)) ∧
    ((GetRead s inode off len).1.2 < len →
      byteAt s.cache_impl inode (off + (GetRead s inode off len).1.2) = none) ∧
    ((∀ i, i < len → byteAt s.cache_impl inode (off + i) = none) →
      (GetRead s inode off len).1.2 = 0) := by
  refine ⟨rfl, rfl, lookupBytes_length_le _ _ _ _, ?_, ?_, ?_⟩
  · intro i hi
    exact lookupBytes_get? s.cache_impl inode len off i hi
  · intro hlt
    exact lookupBytes_maximal s.cache_impl inode len off hlt
  · intro hmiss
    cases len with
    | zero => rfl
    | succ n =>
      have h0 := hmiss 0 (Nat.succ_pos n)
      rw [Nat.add_zero] at h0
      show (lookupBytes s.cache_impl inode off (n + 1)).length = 0
      simp [lookupBytes, h0]

/-- C3 witness: on a fresh (empty) cache every lookup is a full miss and
`getRead` returns 0 bytes. -/
theorem c3_witness : (GetRead (XrdFileCache.init 50) 1 0 5).1.2 = 0 := by
  have h := c3_getRead_spec (XrdFileCache.init 50) 1 0 5
  exact h.2.2.2.2.2 (by decide)

/-- C4 (amended): `removeFileInode(inode, strong := true)` returns false and
leaves the state unchanged whenever the reference count is positive, the
pending-write count is positive, or ANY Cache Entry for the inode (clean or
dirty) is resident; when the file is fully quiescent (no references, no
pending writes, no resident entries at all) it returns true and removes the
file's state; and whenever it returns false the state is unchanged. -/
theorem c4_removeFileInode_strong (s : XrdFileCache) (inode : Nat)
    (fa : FileAbstraction) (hfa : lookupFA s.inode2fAbst inode = some fa) :
    ((0 < fa.refCount ∨ 0 < fa.pendingWrites ∨ ∃ e ∈ s.cache_impl, e.inode = inode) →
      RemoveFileInode s inode true = ((false, false), s)) ∧
    ((fa.refCount = 0 ∧ fa.pendingWrites = 0 ∧ ∀ e ∈ s.cache_impl, e.inode ≠ inode) →
      (RemoveFileInode s inode true).1.1 = true ∧
      lookupFA (RemoveFileInode s inode true).2.inode2fAbst inode = none ∧
      ∀ e ∈ (RemoveFileInode s inode true).2.cache_impl, e.inode ≠ inode) ∧
    (∀ strong : Bool, (RemoveFileInode s inode strong).1.1 = false →
      (RemoveFileInode s inode strong).2 = s) := by
  refine ⟨?_, ?_, ?_⟩
  · intro hblock
    have hc : (fa.refCount == 0 && fa.pendingWrites == 0
        && (s.cache_impl.filter (fun e => e.inode == inode)).isEmpty) = false := by
      rcases hblock with h | h | ⟨e, he, hei⟩
      · have hne : fa.refCount ≠ 0 := by omega
        simp [hne]
      · have hne : fa.pendingWrites ≠ 0 := by omega
        simp [hne]
      · have hmem : e ∈ s.cache_impl.filter (fun e => e.inode == inode) :=
          List.mem_filter.mpr ⟨he, by simp [hei]⟩
        cases hfil : s.cache_impl.filter (fun e => e.inode == inode) with
        | nil => rw [hfil] at hmem; cases hmem
        | cons x xs => simp
    simp [RemoveFileInode, hfa, hc]
  · rintro ⟨h1, h2, h3⟩
    have hfil : s.cache_impl.filter (fun e => e.inode == inode) = [] := by
      apply List.filter_eq_nil.mpr
      intro e he
      simp [h3 e he]
    have hc : (fa.refCount == 0 && fa.pendingWrites == 0
        && (s.cache_impl.filter (fun e => e.inode == inode)).isEmpty) = true := by
      simp [h1, h2, hfil]
    have hs : RemoveFileInode s inode true =
        ((true, (s.cache_impl.filter (fun e => e.inode == inode)).any (fun e => e.dirty)),
         { s with inode2fAbst := s.inode2fAbst.filter (fun f => f.inode != inode),
                  cache_impl := s.cache_impl.filter (fun e => e.inode != inode),
                  queue_used_indx := s.queue_used_indx ++ [fa.slot] }) := by
      simp [RemoveFileInode, hfa, hc]
    rw [hs]
    refine ⟨rfl, ?_, ?_⟩
    · show lookupFA (s.inode2fAbst.filter (fun f => f.inode != inode)) inode = none
      apply List.find?_eq_none.mpr
      intro x hx
      have hx2 := (List.mem_filter.mp hx).2
      simp at hx2 ⊢
      exact hx2
    · intro e he
      have he2 := (List.mem_filter.mp he).2
      simpa using he2
  · intro strong hfalse
    by_cases hc : (if strong then fa.refCount == 0 && fa.pendingWrites == 0
        && (s.cache_impl.filter (fun e => e.inode == inode)).isEmpty
      else fa.refCount == 0) = true
    · exfalso
      have htrue : (RemoveFileInode s inode strong).1.1 = true := by
        simp [RemoveFileInode, hfa, hc]
      rw [htrue] at hfalse
      cases hfalse
    · simp [RemoveFileInode, hfa, hc]

/-- C4 witness: a fully quiescent file (inode 3, no references, no pending
writes, no resident entries) is removed by the strong constraint. -/
theorem c4_witness :
    (RemoveFileInode strongRemovableState 3 true).1.1 = true ∧
    lookupFA (RemoveFileInode strongRemovableState 3 true).2.inode2fAbst 3 = none := by
  have h := c4_removeFileInode_strong strongRemovableState 3 ⟨3, 2, 0, 0, []⟩ (by decide)
  have h2 := h.2.1 (by decide)
  exact ⟨h2.1, h2.2.1⟩

/-- C4 counterexample: in `strongCounterState` the file abstraction of
inode 1 has zero references and zero pending writes and no Cache Entry is
dirty, yet `removeFileInode(1, strong := true)` returns false (a clean
resident read block also blocks strong removal, as the header of
`XrdFileCache::RemoveFileInode` states). -/
theorem c4_counterexample :
    (∃ fa ∈ strongCounterState.inode2fAbst,
      fa.inode = 1 ∧ fa.refCount = 0 ∧ fa.pendingWrites = 0) ∧
    (∀ e ∈ strongCounterState.cache_impl, e.dirty = false) ∧
    (RemoveFileInode strongCounterState 1 true).1.1 = false := by
  decide

/-- C5: once the reference count is 0, `removeFileInode(inode, strong :=
false)` always succeeds — it returns true and removes the mapping even when
dirty unflushed entries exist — and its data-loss flag is set exactly when
dirty entries for the inode were discarded. -/
theorem c5_removeFileInode_weak (s : XrdFileCache) (inode : Nat)
    (fa : FileAbstraction) (hfa : lookupFA s.inode2fAbst inode = some fa)
    (href : fa.refCount = 0) :
    (RemoveFileInode s inode false).1.1 = true ∧
    lookupFA (RemoveFileInode s inode false).2.inode2fAbst inode = none ∧
    ((RemoveFileInode s inode false).1.2 = true ↔
      ∃ e ∈ s.cache_impl, e.inode = inode ∧ e.dirty = true) := by
  have hc : (fa.refCount == 0) = true := by simp [href]
  have hs : RemoveFileInode s inode false =
      ((true, (s.cache_impl.filter (fun e => e.inode == inode)).any (fun e => e.dirty)),
       { s with inode2fAbst := s.inode2fAbst.filter (fun f => f.inode != inode),
                cache_impl := s.cache_impl.filter (fun e => e.inode != inode),
                queue_used_indx := s.queue_used_indx ++ [fa.slot] }) := by
    simp [RemoveFileInode, hfa, hc]
  rw [hs]
  refine ⟨rfl, ?_, ?_⟩
  · show lookupFA (s.inode2fAbst.filter (fun f => f.inode != inode)) inode = none
    apply List.find?_eq_none.mpr
    intro x hx
    have hx2 := (List.mem_filter.mp hx).2
    simp at hx2 ⊢
    exact hx2
  · show (s.cache_impl.filter (fun e => e.inode == inode)).any (fun e => e.dirty)
        = true ↔ _
    rw [List.any_eq_true]
    constructor
    · rintro ⟨e, he, hd⟩
      have hm := List.mem_filter.mp he
      exact ⟨e, hm.1, by simpa using hm.2, hd⟩
    · rintro ⟨e, he, hei, hd⟩
      exact ⟨e, List.mem_filter.mpr ⟨he, by simp [hei]⟩, hd⟩

/-- C5 witness: weak removal of inode 2 — unreferenced but with a dirty
entry — succeeds and reports the discarded dirty data. -/
theorem c5_witness :
    (RemoveFileInode weakRemovableState 2 false).1.1 = true ∧
    (RemoveFileInode weakRemovableState 2 false).1.2 = true := by
  have h := c5_removeFileInode_weak weakRemovableState 2 ⟨2, 0, 0, 0, []⟩ (by decide) rfl
  exact ⟨h.1, h.2.2.mpr ⟨⟨2, 0, [9], true⟩, by decide, rfl, rfl⟩⟩

/-- C6: when the worker processes a failing write job it appends one error
record to the originating file's error queue, still decrements that file's
pending-write counter, and leaves the Block Store — hence the still-dirty
Cache Entry — untouched; and `submitWrite` itself never surfaces the
failure: after `submitWrite` returns, every file's error queue is the queue
it had before (a freshly created file's queue being empty). -/
theorem c6_worker_failure (s : XrdFileCache) (inode off : Nat) (data : List Nat)
    (fa : FileAbstraction) (hfa : lookupFA s.inode2fAbst inode = some fa) :
    (∃ fa', lookupFA (processJob ⟨inode, off, data, false⟩ s).1.inode2fAbst inode
        = some fa' ∧
      fa'.errorQueue = fa.errorQueue ++ [⟨off, data.length⟩] ∧
      fa'.pendingWrites = fa.pendingWrites - 1) ∧
    (processJob ⟨inode, off, data, false⟩ s).1.cache_impl = s.cache_impl ∧
    (∀ (b : Bool) (j : Nat) (fa₂ : FileAbstraction),
      lookupFA (SubmitWrite s inode off data b).1.inode2fAbst j = some fa₂ →
      fa₂.errorQueue = [] ∨
        ∃ fa₁, lookupFA s.inode2fAbst j = some fa₁ ∧ fa₂.errorQueue = fa₁.errorQueue) := by
  refine ⟨?_, ?_, ?_⟩
  · have hp : (processJob ⟨inode, off, data, false⟩ s).1.inode2fAbst
        = updateFA s.inode2fAbst inode (recordError off data.length) := by
      simp [processJob]
    rw [hp, lookupFA_updateFA_self s.inode2fAbst inode
      (recordError off data.length) (fun fa => rfl), hfa]
    exact ⟨recordError off data.length fa, rfl, rfl, rfl⟩
  · simp [processJob]
  · intro b j fa₂ hl
    have hsub : (SubmitWrite s inode off data b).1.inode2fAbst
        = updateFA s.inode2fAbst inode incPending := by
      simp [SubmitWrite, hfa]
    rw [hsub] at hl
    by_cases hij : inode = j
    · subst hij
      rw [lookupFA_updateFA_self s.inode2fAbst inode incPending (fun fa => rfl), hfa] at hl
      have h2 : incPending fa = fa₂ := by
        simpa using hl
      exact Or.inr ⟨fa, hfa, by rw [← h2]; rfl⟩
    · rw [lookupFA_updateFA_ne s.inode2fAbst inode j incPending (fun fa => rfl) hij] at hl
      exact Or.inr ⟨fa₂, hl, rfl⟩

/-- C6 witness: processing a failing 1-byte write job for inode 4 leaves one
error record on its queue and its pending counter back at 0. -/
theorem c6_witness :
    ∃ fa', lookupFA (processJob (⟨4, 0, [5], false⟩ : WriteJob) failState).1.inode2fAbst 4
        = some fa' ∧ fa'.errorQueue = [⟨0, 1⟩] ∧ fa'.pendingWrites = 0 := by
  have h := c6_worker_failure failState 4 0 [5] ⟨4, 0, 0, 1, []⟩ (by decide)
  obtain ⟨fa', h1, h2, h3⟩ := h.1
  refine ⟨fa', h1, ?_, ?_⟩
  · rw [h2]; rfl
  · rw [h3]; rfl

/-- C7: starting from a file with an empty error queue and an empty write
queue, after `submitWrite` followed by `waitFinishWrites` the file's error
queue is empty if and only if the remote write succeeded. -/
theorem c7_errorQueue_iff_success (s : XrdFileCache) (inode off : Nat)
    (data : List Nat) (succ : Bool) (fa : FileAbstraction)
    (hfa : lookupFA s.inode2fAbst inode = some fa)
    (herr : fa.errorQueue = []) (hq : s.writeQueue = []) :
    ∃ fa', lookupFA (WaitFinishWrites (SubmitWrite s inode off data succ).1
          inode).inode2fAbst inode = some fa' ∧
      (fa'.errorQueue = [] ↔ succ = true) := by
  obtain ⟨s₁, hs₁⟩ : ∃ t, (SubmitWrite s inode off data succ).1 = t := ⟨_, rfl⟩
  have hq1 : s₁.writeQueue = [⟨inode, off, data, succ⟩] := by
    rw [← hs₁]
    simp [SubmitWrite, hfa, hq]
  have hfa1 : lookupFA s₁.inode2fAbst inode = some (incPending fa) := by
    rw [← hs₁]
    have hsub : (SubmitWrite s inode off data succ).1.inode2fAbst
        = updateFA s.inode2fAbst inode incPending := by
      simp [SubmitWrite, hfa]
    rw [hsub, lookupFA_updateFA_self s.inode2fAbst inode incPending (fun fa => rfl), hfa]
    rfl
  rw [hs₁, waitFinish_single s₁ ⟨inode, off, data, succ⟩ inode hq1]
  cases succ with
  | true =>
    have hp : (processJob (⟨inode, off, data, true⟩ : WriteJob)
        { s₁ with writeQueue := [] }).1.inode2fAbst
        = updateFA s₁.inode2fAbst inode decPending := by
      simp [processJob]
    rw [hp, lookupFA_updateFA_self s₁.inode2fAbst inode decPending (fun fa => rfl), hfa1]
    refine ⟨decPending (incPending fa), rfl, ?_⟩
    simp [decPending, incPending, herr]
  | false =>
    have hp : (processJob (⟨inode, off, data, false⟩ : WriteJob)
        { s₁ with writeQueue := [] }).1.inode2fAbst
        = updateFA s₁.inode2fAbst inode (recordError off data.length) := by
      simp [processJob]
    rw [hp, lookupFA_updateFA_self s₁.inode2fAbst inode
      (recordError off data.length) (fun fa => rfl), hfa1]
    refine ⟨recordError off data.length (incPending fa), rfl, ?_⟩
    simp [recordError, incPending, herr]

/-- C7 witness: a failing `submitWrite` on inode 6 followed by
`waitFinishWrites` leaves a non-empty error queue. -/
theorem c7_witness :
    ∃ fa', lookupFA (WaitFinishWrites (SubmitWrite submitState 6 0 [8] false).1
          6).inode2fAbst 6 = some fa' ∧ (fa'.errorQueue = [] ↔ false = true) := by
  exact c7_errorQueue_iff_success submitState 6 0 [8] false ⟨6, 0, 0, 0, []⟩
    (by decide) rfl rfl

/-- C8: the slot-index pool invariant — `max_index_files` is 1000 (and at
least 10, as the header requires); along any operation sequence from the
initialised cache at most `max_index_files` File Abstractions are live
concurrently; and after creating and destroying `max_index_files` File
Abstractions sequentially the pool again holds exactly `max_index_files`
available indices. -/
theorem c8_slot_pool :
    (max_index_files = 1000 ∧ 10 ≤ max_index_files) ∧
    (∀ (s_max : Nat) (ops : List CacheOp),
      (runOps (XrdFileCache.init s_max) ops).inode2fAbst.length ≤ max_index_files) ∧
    (∀ s_max : Nat,
      (createDestroyIter max_index_files 0
          (XrdFileCache.init s_max)).queue_used_indx.length = max_index_files ∧
      (createDestroyIter max_index_files 0 (XrdFileCache.init s_max)).inode2fAbst
          = []) := by
  refine ⟨⟨rfl, by simp [max_index_files]⟩, ?_, ?_⟩
  · intro s_max ops
    have h := (runOps_inv ops (XrdFileCache.init s_max) (init_inv s_max)).1.2.2
    omega
  · intro s_max
    have h := createDestroyIter_clean max_index_files 0 (XrdFileCache.init s_max)
      rfl (by simp [XrdFileCache.init])
    exact ⟨h.2, h.1⟩

/-- C9: the single write-back worker performs the remote writes of the
queued jobs in exactly the order the jobs were submitted to the queue, and
in particular, for every file, in that file's submission order. -/
theorem c9_worker_order (s : XrdFileCache) :
    (WriteThreadProc s).2
        = s.writeQueue.map (fun j => RemoteEvent.mk j.inode j.off j.data.length) ∧
    ∀ i : Nat, ((WriteThreadProc s).2.filter (fun ev => ev.inode == i))
        = (s.writeQueue.filter (fun j => j.inode == i)).map
            (fun j => RemoteEvent.mk j.inode j.off j.data.length) := by
  constructor
  · exact runJobs_trace s.writeQueue _
  · intro i
    show ((runJobs s.writeQueue { s with writeQueue := [] }).2.filter
        (fun ev => ev.inode == i)) = _
    rw [runJobs_trace s.writeQueue _]
    exact filter_trace_inode s.writeQueue i

/-- C10: `GetInstance` is a singleton accessor: the second call returns the
same instance as the first, leaves the stored `pInstance` unchanged, and its
`s_max` argument has no effect — the cache's maximum size stays the one
fixed by the first call; on any state already holding an instance,
`GetInstance` is the identity on it. -/
theorem c10_getInstance_singleton :
    (∀ s1 s2 : Nat,
      (GetInstance (GetInstance none s1).1 s2).2 = (GetInstance none s1).2 ∧
      (GetInstance (GetInstance none s1).1 s2).1 = (GetInstance none s1).1 ∧
      (GetInstance (GetInstance none s1).1 s2).2.cache_size_max = s1) ∧
    (∀ (c : XrdFileCache) (s : Nat), GetInstance (some c) s = (some c, c)) := by
  exact ⟨fun s1 s2 => ⟨rfl, rfl, rfl⟩, fun c s => rfl⟩

end EosXrdFileCache
